import Mathlib

/-!
Verification of the databend pipeline slice: the window-partition scatter
operator, the hash-join pipeline builder, the merged-range block reader and
the fixed-width hash-key packing.  Each definition is a shallow embedding of
the corresponding Rust item; the theorems settle the spec's claims.
-/

namespace DatabendSpec

/-! ### Window partition scatter: data model
    (transform_window_partition_scatter.rs)

A row is the list of its column values (one abstract value per column, here
a natural number).  A `RowBlock` is a data block seen row-wise: entry `i`
of the list is row `i`, and entry `k` of a row is the value of the column
at offset `k` (a `Value.Scalar` entry is represented by repeating the
scalar in every row, exactly what the Rust code does with
`ColumnBuilder::repeat`).  A `DBlock` is a block as it travels through the
scatter operator's ports: its row payload plus an optional
`WindowPartitionMeta` payload, the list of `(partition_id, block)` pairs. -/

abbrev Row := List Nat

abbrev RowBlock := List Row

structure DBlock where
  rows : RowBlock
  meta : Option (List (Nat × RowBlock))
deriving DecidableEq, Repr

/-- The values of the configured hash-key columns at one row, in the order
given by `hash_keys` (the code's `get_by_offset` per offset). -/
def keyVals (hashKeys : List Nat) (r : Row) : List Nat :=
  hashKeys.map (fun k => r.getD k 0)

/-- Per-row hash: `group_hash_columns_slice` is not part of the excerpt, so
the hash function `hf` on the list of key-column values of the row is kept
abstract; the Rust code computes `hashes[i]` from the values at row `i` of
the columns selected by `hash_keys`. -/
def rowHash (hf : List Nat → Nat) (hashKeys : List Nat) (r : Row) : Nat :=
  hf (keyVals hashKeys r)

/-- The partition index the Rust code assigns to a row of hash `h`:
`(hash % self.num_partitions as u64) as u8`, i.e. the remainder modulo the
partition count, truncated to 8 bits by the `as u8` cast. -/
def partitionOf (K h : Nat) : Nat := h % K % 256

/-- The vector `indices` of partition indices computed in `process`. -/
def scatterIndices (hf : List Nat → Nat) (hashKeys : List Nat) (K : Nat)
    (block : RowBlock) : List Nat :=
  block.map (fun r => partitionOf K (rowHash hf hashKeys r))

/-- Modelled from the spec: `DataBlock::scatter` is not part of the excerpt;
the spec says the operator "buckets rows into `K` logical partitions" and
"no row is dropped", so bucket `p` is the subsequence of rows whose index
is `p`, in input order. -/
def scatterRows (block : RowBlock) (idx : List Nat) (K : Nat) : List RowBlock :=
  (List.range K).map (fun p => ((block.zip idx).filter (fun x => x.2 == p)).map Prod.fst)

/-- The `(partition_id, block)` pairs accumulated for output channel `c`:
the Rust loop pushes `(partition_id, block)` onto channel
`partition_id % num_processors`, scanning partition ids in increasing
order. -/
def channelMeta (sblocks : List RowBlock) (K M c : Nat) : List (Nat × RowBlock) :=
  ((List.range K).filter (fun p => p % M == c)).map (fun p => (p, sblocks.getD p []))

/-- One full `process` call on one input block: hash, scatter into `K`
partitions, group the partitions into `M` channels, and wrap each channel's
pairs into an empty block carrying only the meta payload
(`DataBlock::empty_with_meta`). -/
def processOne (hf : List Nat → Nat) (hashKeys : List Nat) (K M : Nat)
    (block : RowBlock) : List DBlock :=
  (List.range M).map (fun c =>
    DBlock.mk []
      (some (channelMeta (scatterRows block (scatterIndices hf hashKeys K block) K) K M c)))

/-- Total number of rows carried inside the meta payloads of a list of
output blocks (plus any plain row payload, which `process` never emits). -/
def dblockRows (d : DBlock) : Nat :=
  d.rows.length + ((d.meta.getD []).map (fun x => x.2.length)).sum

def totalRows (l : List DBlock) : Nat := (l.map dblockRows).sum

example :
    processOne (fun l => l.sum) [0] 2 2 [[0], [1], [2]] =
      [DBlock.mk [] (some [(0, [[0], [2]])]), DBlock.mk [] (some [(1, [[1]])])] := by
  decide

example : totalRows (processOne (fun l => l.sum) [0] 2 2 [[0], [1], [2]]) = 3 := by
  decide

/-! ### Sum-over-buckets lemmas -/

lemma sum_range_ite (n j a : Nat) (S : Nat → Nat) (hj : j < n) :
    (∑ c in Finset.range n, if c = j then a + S c else S c)
      = a + ∑ c in Finset.range n, S c := by
  have h : ∀ c, (if c = j then a + S c else S c) = (if c = j then a else 0) + S c := by
    intro c; split <;> omega
  simp only [h, Finset.sum_add_distrib, Finset.sum_ite_eq' (Finset.range n) j (fun _ => a)]
  simp [Finset.mem_range.mpr hj]

/-- Splitting a weighted sum over a list by the class `f x < n` of each
element and re-summing over the classes loses nothing. -/
lemma sum_filter_classes {α : Type} (n : Nat) (f g : α → Nat) :
    ∀ l : List α, (∀ x ∈ l, f x < n) →
      ((List.range n).map (fun c => ((l.filter (fun x => f x == c)).map g).sum)).sum
        = (l.map g).sum := by
  intro l
  induction l with
  | nil => intro _; simp
  | cons a l ih =>
    intro h
    have ha : f a < n := h a (List.mem_cons_self a l)
    have hl : ∀ x ∈ l, f x < n := fun x hx => h x (List.mem_cons_of_mem a hx)
    have step : ∀ c, (((a :: l).filter (fun x => f x == c)).map g).sum
        = if c = f a then g a + ((l.filter (fun x => f x == c)).map g).sum
          else ((l.filter (fun x => f x == c)).map g).sum := by
      intro c
      by_cases hc : c = f a
      · subst hc; simp [List.filter_cons]
      · have : (f a == c) = false := by
          simp only [beq_eq_false_iff_ne]; exact fun e => hc e.symm
        simp [List.filter_cons, this, hc]
    have bridge : ∀ F : Nat → Nat,
        ((List.range n).map F).sum = ∑ c in Finset.range n, F c := fun _ => rfl
    calc ((List.range n).map
            (fun c => (((a :: l).filter (fun x => f x == c)).map g).sum)).sum
        = ∑ c in Finset.range n,
            (((a :: l).filter (fun x => f x == c)).map g).sum := bridge _
      _ = ∑ c in Finset.range n,
            (if c = f a then g a + ((l.filter (fun x => f x == c)).map g).sum
             else ((l.filter (fun x => f x == c)).map g).sum) :=
          Finset.sum_congr rfl (fun c _ => step c)
      _ = g a + ∑ c in Finset.range n,
            ((l.filter (fun x => f x == c)).map g).sum :=
          sum_range_ite n (f a) (g a) _ ha
      _ = g a + ((List.range n).map
            (fun c => ((l.filter (fun x => f x == c)).map g).sum)).sum := by
          rw [bridge]
      _ = g a + (l.map g).sum := by rw [ih hl]
      _ = ((a :: l).map g).sum := by simp

lemma sum_map_one {α : Type} : ∀ l : List α, (l.map (fun _ => 1)).sum = l.length := by
  intro l; induction l with
  | nil => rfl
  | cons a l ih => simp [ih]; omega

/-- Counting version of `sum_filter_classes`. -/
lemma sum_filter_classes_count {α : Type} (n : Nat) (f : α → Nat) (l : List α)
    (h : ∀ x ∈ l, f x < n) :
    ((List.range n).map (fun c => (l.filter (fun x => f x == c)).length)).sum
      = l.length := by
  have := sum_filter_classes n f (fun _ => 1) l h
  rw [sum_map_one] at this
  rw [← this]
  congr 1
  apply List.map_congr_left
  intro c _
  rw [sum_map_one]

lemma partitionOf_lt (K h : Nat) (hK : 0 < K) : partitionOf K h < K :=
  lt_of_le_of_lt (Nat.mod_le _ _) (Nat.mod_lt _ hK)

lemma getD_map_range {β : Type} (F : Nat → β) (K p : Nat) (d : β) (hp : p < K) :
    ((List.range K).map F).getD p d = F p := by
  rw [List.getD_eq_getElem?_getD, List.getElem?_map, List.getElem?_range hp]
  rfl

/-- **C1.** Row conservation of the scatter operator: for every input block,
partition count `K > 0` and processor count `M > 0`, the rows carried inside
the `WindowPartitionMeta` payloads that `process` appends across all `M`
output channels add up to exactly the number of rows of the consumed input
block. -/
theorem scatter_row_conservation (hf : List Nat → Nat) (hashKeys : List Nat)
    (K M : Nat) (block : RowBlock) (hK : 0 < K) (hM : 0 < M) :
    totalRows (processOne hf hashKeys K M block) = block.length := by
  have hidx : ∀ x ∈ block.zip (scatterIndices hf hashKeys K block), x.2 < K := by
    intro x hx
    have h2 := (List.of_mem_zip hx).2
    simp only [scatterIndices, List.mem_map] at h2
    obtain ⟨r, _, hr⟩ := h2
    rw [← hr]
    exact partitionOf_lt K _ hK
  have hlen : (block.zip (scatterIndices hf hashKeys K block)).length = block.length := by
    simp [scatterIndices]
  have hgetD : ∀ p ∈ List.range K,
      ((scatterRows block (scatterIndices hf hashKeys K block) K).getD p []).length
        = ((block.zip (scatterIndices hf hashKeys K block)).filter
            (fun x => x.2 == p)).length := by
    intro p hp
    rw [scatterRows, getD_map_range _ _ _ _ (List.mem_range.mp hp), List.length_map]
  calc totalRows (processOne hf hashKeys K M block)
      = ((List.range M).map (fun c =>
          (((List.range K).filter (fun p => p % M == c)).map (fun p =>
            ((scatterRows block (scatterIndices hf hashKeys K block) K).getD p []).length)).sum)).sum := by
        simp only [totalRows, processOne, List.map_map]
        congr 1
        apply List.map_congr_left
        intro c _
        simp [Function.comp, dblockRows, channelMeta, List.map_map]
        rfl
    _ = ((List.range K).map (fun p =>
          ((scatterRows block (scatterIndices hf hashKeys K block) K).getD p []).length)).sum := by
        exact sum_filter_classes M (fun p => p % M) _ (List.range K)
          (fun p _ => Nat.mod_lt _ hM)
    _ = ((List.range K).map (fun p =>
          ((block.zip (scatterIndices hf hashKeys K block)).filter
            (fun x => x.2 == p)).length)).sum := by
        rw [List.map_congr_left hgetD]
    _ = (block.zip (scatterIndices hf hashKeys K block)).length :=
        sum_filter_classes_count K (fun x : Row × Nat => x.2) _ hidx
    _ = block.length := hlen

/-- Closed witness for `scatter_row_conservation`: a 3-row block scattered
with `K = 2`, `M = 2`. -/
theorem scatter_row_conservation_witness :
    totalRows (processOne (fun l => l.sum) [0] 2 2 [[0], [1], [2]]) = 3 :=
  scatter_row_conservation (fun l => l.sum) [0] 2 2 [[0], [1], [2]]
    (by decide) (by decide)

lemma scatterIndices_getD (hf : List Nat → Nat) (hashKeys : List Nat) (K : Nat)
    (block : RowBlock) (t : Nat) (ht : t < block.length) :
    (scatterIndices hf hashKeys K block).getD t 0
      = partitionOf K (rowHash hf hashKeys (block.getD t [])) := by
  rw [scatterIndices, List.getD_eq_getElem?_getD, List.getElem?_map]
  simp [List.getD_eq_getElem?_getD, List.getElem?_eq_getElem ht]

/-- **C2.** Partition correctness of the scatter operator: two rows of the
same input block whose values agree on all configured hash-key columns are
assigned the same partition index by `process`, for every partition count
`K` and (since the index does not depend on it) every processor count. -/
theorem scatter_partition_correctness (hf : List Nat → Nat) (hashKeys : List Nat)
    (K : Nat) (block : RowBlock) (i j : Nat)
    (hi : i < block.length) (hj : j < block.length)
    (hkey : keyVals hashKeys (block.getD i []) = keyVals hashKeys (block.getD j [])) :
    (scatterIndices hf hashKeys K block).getD i 0
      = (scatterIndices hf hashKeys K block).getD j 0 := by
  rw [scatterIndices_getD hf hashKeys K block i hi,
    scatterIndices_getD hf hashKeys K block j hj, rowHash, rowHash, hkey]

/-- Closed witness for `scatter_partition_correctness`: rows `[1, 5]` and
`[1, 9]` agree on key column 0 and get the same partition index. -/
theorem scatter_partition_correctness_witness :
    (scatterIndices (fun l => l.sum) [0] 4 [[1, 5], [1, 9]]).getD 0 0
      = (scatterIndices (fun l => l.sum) [0] 4 [[1, 5], [1, 9]]).getD 1 0 :=
  scatter_partition_correctness (fun l => l.sum) [0] 4 [[1, 5], [1, 9]] 0 1
    (by decide) (by decide) (by decide)

/-- **C3, counterexample.** The claim says a row is placed in logical
partition `row_hash mod K` for every partition count `K`; but the code
truncates the index with an `as u8` cast, so a row with hash 300 under
`K = 400` is placed in partition `300 % 400 % 256 = 44`, not
`300 % 400 = 300`. -/
theorem scatter_partition_formula_cex :
    (scatterIndices (fun l => l.sum) [0] 400 [[300]]).getD 0 0 = 44 ∧
    rowHash (fun l => l.sum) [0] [300] % 400 = 300 ∧ (44 : Nat) ≠ 300 := by
  decide

/-- **C3, amended.** For every input block, `K > 0`, `M > 0` and row index
`i`: the row is placed in logical partition
`p = row_hash % K % 256` (the `as u8`-truncated remainder, which equals
`row_hash % K` whenever `K ≤ 256`); partition `p` is routed to output
channel `p % M`, i.e. the block carrying the row appears in that channel's
meta paired with partition id `p`; and exactly one repackaged batch is
produced per output channel (`M` in total). -/
theorem scatter_bucketing_amended (hf : List Nat → Nat) (hashKeys : List Nat)
    (K M : Nat) (block : RowBlock) (i : Nat)
    (hK : 0 < K) (hM : 0 < M) (hi : i < block.length) :
    (scatterIndices hf hashKeys K block).getD i 0
        = rowHash hf hashKeys (block.getD i []) % K % 256 ∧
    (processOne hf hashKeys K M block).length = M ∧
    ∃ pairs,
      ((processOne hf hashKeys K M block).getD
          (rowHash hf hashKeys (block.getD i []) % K % 256 % M)
          (DBlock.mk [] none)).meta = some pairs ∧
      ∃ b, (rowHash hf hashKeys (block.getD i []) % K % 256, b) ∈ pairs ∧
        block.getD i [] ∈ b := by
  have hp : rowHash hf hashKeys (block.getD i []) % K % 256
      = partitionOf K (rowHash hf hashKeys (block.getD i [])) := rfl
  have hpK : partitionOf K (rowHash hf hashKeys (block.getD i [])) < K :=
    partitionOf_lt K _ hK
  have hpM : partitionOf K (rowHash hf hashKeys (block.getD i [])) % M < M :=
    Nat.mod_lt _ hM
  refine ⟨scatterIndices_getD hf hashKeys K block i hi, by simp [processOne], ?_⟩
  rw [hp, processOne, getD_map_range _ _ _ _ hpM]
  refine ⟨_, rfl, ?_⟩
  refine ⟨(scatterRows block (scatterIndices hf hashKeys K block) K).getD
    (partitionOf K (rowHash hf hashKeys (block.getD i []))) [], ?_, ?_⟩
  · rw [channelMeta]
    apply List.mem_map_of_mem
    rw [List.mem_filter]
    exact ⟨List.mem_range.mpr hpK, by simp⟩
  · rw [scatterRows, getD_map_range _ _ _ _ hpK]
    apply List.mem_map_of_mem (f := Prod.fst)
      (a := (block.getD i [], partitionOf K (rowHash hf hashKeys (block.getD i []))))
    rw [List.mem_filter]
    constructor
    · rw [List.mem_iff_getElem]
      have hzl : i < (block.zip (scatterIndices hf hashKeys K block)).length := by
        simp [scatterIndices, hi]
      refine ⟨i, hzl, ?_⟩
      rw [List.getElem_zip]
      have h1 : block[i] = block.getD i [] := by
        simp [List.getD_eq_getElem?_getD, List.getElem?_eq_getElem hi]
      have hlen : i < (scatterIndices hf hashKeys K block).length := by
        simp [scatterIndices, hi]
      have h2 : (scatterIndices hf hashKeys K block)[i]
          = partitionOf K (rowHash hf hashKeys (block.getD i [])) := by
        have := scatterIndices_getD hf hashKeys K block i hi
        rw [List.getD_eq_getElem?_getD, List.getElem?_eq_getElem hlen] at this
        simpa using this
      rw [h1, h2]
    · simp

/-- Closed witness for `scatter_bucketing_amended`: row 1 of a 3-row block
with `K = 2`, `M = 2`. -/
theorem scatter_bucketing_amended_witness :
    (scatterIndices (fun l => l.sum) [0] 2 [[0], [1], [2]]).getD 1 0
        = rowHash (fun l => l.sum) [0] (([[0], [1], [2]] : RowBlock).getD 1 []) % 2 % 256 ∧
    (processOne (fun l => l.sum) [0] 2 2 [[0], [1], [2]]).length = 2 ∧
    ∃ pairs,
      ((processOne (fun l => l.sum) [0] 2 2 [[0], [1], [2]]).getD
          (rowHash (fun l => l.sum) [0] (([[0], [1], [2]] : RowBlock).getD 1 []) % 2 % 256 % 2)
          (DBlock.mk [] none)).meta = some pairs ∧
      ∃ b, (rowHash (fun l => l.sum) [0] (([[0], [1], [2]] : RowBlock).getD 1 []) % 2 % 256, b) ∈ pairs ∧
        ([[0], [1], [2]] : RowBlock).getD 1 [] ∈ b :=
  scatter_bucketing_amended (fun l => l.sum) [0] 2 2 [[0], [1], [2]] 1
    (by decide) (by decide) (by decide)

/-! ### Scatter processor state -/

/-- The private buffering state of `TransformWindowPartitionScatter`:
the `is_initialized` flag, the pending input blocks
(`input_data_blocks : VecDeque<DataBlock>`) and one pending output queue
per output port (`output_data_blocks : Vec<VecDeque<DataBlock>>`). -/
structure ScatterSt where
  isInit : Bool
  inputBlocks : List RowBlock
  queues : List (List DBlock)
deriving DecidableEq, Repr

/-- The `process` method on the processor state: pop the front pending
input block if there is one, and append the `M` per-channel meta blocks
produced for it to the corresponding output pending queues. -/
def processStep (hf : List Nat → Nat) (hashKeys : List Nat) (K M : Nat)
    (st : ScatterSt) : ScatterSt :=
  match st.inputBlocks with
  | [] => st
  | b :: rest =>
    { st with
      inputBlocks := rest
      queues := (st.queues.zip (processOne hf hashKeys K M b)).map
        (fun x => x.1 ++ [x.2]) }

/-- **C10.** A `process` call that finds a pending input block consumes
exactly that one block, and appends exactly one block to the pending queue
of every one of the `M` output channels — each appended block having an
empty row payload and carrying only a `WindowPartitionMeta` payload. -/
theorem process_appends_one_meta_block_per_channel
    (hf : List Nat → Nat) (hashKeys : List Nat) (K M : Nat)
    (st : ScatterSt) (b : RowBlock) (rest : List RowBlock)
    (hin : st.inputBlocks = b :: rest) (hq : st.queues.length = M) :
    (processStep hf hashKeys K M st).inputBlocks = rest ∧
    (processStep hf hashKeys K M st).queues.length = M ∧
    ∀ c, c < M →
      ∃ m, (processStep hf hashKeys K M st).queues.getD c []
        = st.queues.getD c [] ++ [DBlock.mk [] (some m)] := by
  have hpo : (processOne hf hashKeys K M b).length = M := by simp [processOne]
  refine ⟨by simp [processStep, hin], ?_, ?_⟩
  · simp [processStep, hin, List.length_zip, hpo, hq]
  · intro c hc
    have hlq : c < st.queues.length := by omega
    have hzip : c < (st.queues.zip (processOne hf hashKeys K M b)).length := by
      rw [List.length_zip]; omega
    refine ⟨channelMeta
      (scatterRows b (scatterIndices hf hashKeys K b) K) K M c, ?_⟩
    have hmap : c < ((st.queues.zip (processOne hf hashKeys K M b)).map
        (fun x => x.1 ++ [x.2])).length := by
      rw [List.length_map]; omega
    simp only [processStep, hin]
    rw [List.getD_eq_getElem?_getD, List.getElem?_map,
      List.getElem?_eq_getElem hzip]
    rw [List.getD_eq_getElem?_getD, List.getElem?_eq_getElem hlq]
    simp only [Option.map_some, Option.getD_some]
    rw [List.getElem_zip]
    have hpoc : (processOne hf hashKeys K M b)[c] = DBlock.mk []
        (some (channelMeta (scatterRows b (scatterIndices hf hashKeys K b) K) K M c)) := by
      simp [processOne]
    rw [hpoc]
    simp

/-- Closed witness for `process_appends_one_meta_block_per_channel`. -/
theorem process_appends_one_meta_block_per_channel_witness :
    (processStep (fun l => l.sum) [0] 2 2
        (ScatterSt.mk true [[[0], [1]]] [[], []])).inputBlocks = [] ∧
    (processStep (fun l => l.sum) [0] 2 2
        (ScatterSt.mk true [[[0], [1]]] [[], []])).queues.length = 2 ∧
    ∀ c, c < 2 →
      ∃ m, (processStep (fun l => l.sum) [0] 2 2
          (ScatterSt.mk true [[[0], [1]]] [[], []])).queues.getD c []
        = (ScatterSt.mk true [[[0], [1]]] [[], []]).queues.getD c []
            ++ [DBlock.mk [] (some m)] :=
  process_appends_one_meta_block_per_channel (fun l => l.sum) [0] 2 2
    (ScatterSt.mk true [[[0], [1]]] [[], []]) [[0], [1]] [] rfl rfl

/-! ### Scatter processor `event` state machine
    (TransformWindowPartitionScatter::event)

Port states are per-call snapshots of the flags the code reads
(`is_finished`, `can_push`, `has_data`); the port operations the call
performs are recorded as a list of actions, in program order. -/

structure OutPort where
  finished : Bool
  canPush : Bool
deriving DecidableEq, Repr

structure InPort where
  finished : Bool
  hasData : Bool
  dat : RowBlock
deriving DecidableEq, Repr

inductive PEvent
  | needData
  | needConsume
  | sync
  | finishedEv
deriving DecidableEq, Repr

inductive PAction
  | pullInput
  | pushOutput (i : Nat)
  | finishInput
  | finishOutput (i : Nat)
  | setNeedData
deriving DecidableEq, Repr

structure ScanRes where
  allFin : Bool
  needCons : Bool
  queues : List (List DBlock)
  acts : List PAction
deriving Repr

/-- The `for (index, output_port) in self.output_ports.iter().enumerate()`
loop of `event`: skip finished ports, mark `need_consume` when a port
cannot accept data, and pop-and-push one pending block when it can. -/
def scanOutputs : List (OutPort × List DBlock) → Nat → ScanRes
  | [], _ => ⟨true, false, [], []⟩
  | x :: rest, i =>
    let r := scanOutputs rest (i + 1)
    if x.1.finished then ⟨r.allFin, r.needCons, x.2 :: r.queues, r.acts⟩
    else if x.1.canPush = false then ⟨false, true, x.2 :: r.queues, r.acts⟩
    else
      match x.2 with
      | [] => ⟨false, r.needCons, [] :: r.queues, r.acts⟩
      | _ :: bs => ⟨false, true, bs :: r.queues, PAction.pushOutput i :: r.acts⟩

/-- The port operations of `TransformWindowPartitionScatter::finish`:
finish the input port, then every output port in order. -/
def finishActs (n : Nat) : List PAction :=
  PAction.finishInput :: (List.range n).map PAction.finishOutput

/-- One `event` call: returns the reported event, the updated processor
state, and the port operations performed, in program order. -/
def scatterEvent (st : ScatterSt) (inp : InPort) (outs : List OutPort) :
    PEvent × ScatterSt × List PAction :=
  if st.isInit = false then
    (PEvent.needData, { st with isInit := true }, [PAction.setNeedData])
  else
    let r := scanOutputs (outs.zip st.queues) 0
    if r.allFin then
      (PEvent.finishedEv, { st with queues := r.queues },
        r.acts ++ finishActs outs.length)
    else if r.needCons then
      (PEvent.needConsume, { st with queues := r.queues }, r.acts)
    else if inp.hasData then
      (PEvent.sync,
        { st with queues := r.queues, inputBlocks := st.inputBlocks ++ [inp.dat] },
        r.acts ++ [PAction.pullInput])
    else if inp.finished then
      (PEvent.finishedEv, { st with queues := r.queues },
        r.acts ++ finishActs outs.length)
    else
      (PEvent.needData, { st with queues := r.queues },
        r.acts ++ [PAction.setNeedData])

lemma scanOutputs_allFin :
    ∀ (l : List (OutPort × List DBlock)) (i : Nat),
      (scanOutputs l i).allFin = true → ∀ x ∈ l, x.1.finished = true := by
  intro l
  induction l with
  | nil => intro i _ x hx; cases hx
  | cons x rest ih =>
    intro i h y hy
    by_cases hfin : x.1.finished
    · rcases List.mem_cons.mp hy with hy | hy
      · rw [hy]; exact hfin
      · rw [scanOutputs] at h
        simp only [hfin, if_true] at h
        exact ih (i + 1) h y hy
    · exfalso
      rw [scanOutputs] at h
      simp only [hfin] at h
      by_cases hcp : x.1.canPush = false
      · simp [hcp] at h
      · simp only [hcp, if_false] at h
        cases hq : x.2 with
        | nil => rw [hq] at h; simp at h
        | cons b bs => rw [hq] at h; simp at h

lemma scanOutputs_needCons_false :
    ∀ (l : List (OutPort × List DBlock)) (i : Nat),
      (scanOutputs l i).needCons = false →
        ∀ x ∈ l, x.1.finished = false → x.2 = [] := by
  intro l
  induction l with
  | nil => intro i _ x hx; cases hx
  | cons x rest ih =>
    intro i h y hy hyfin
    rw [scanOutputs] at h
    by_cases hfin : x.1.finished
    · simp only [hfin, if_true] at h
      rcases List.mem_cons.mp hy with hy | hy
      · exact absurd (hy ▸ hfin) (by rw [hyfin]; exact fun e => Bool.false_ne_true e)
      · exact ih (i + 1) h y hy hyfin
    · simp only [hfin] at h
      by_cases hcp : x.1.canPush = false
      · simp [hcp] at h
      · simp only [hcp, if_false] at h
        cases hq : x.2 with
        | nil =>
          rw [hq] at h; simp only at h
          rcases List.mem_cons.mp hy with hy | hy
          · rw [hy]; exact hq
          · exact ih (i + 1) (by simpa using h) y hy hyfin
        | cons b bs => rw [hq] at h; simp at h

lemma scanOutputs_push :
    ∀ (l : List (OutPort × List DBlock)) (i k : Nat),
      PAction.pushOutput k ∈ (scanOutputs l i).acts →
        ∃ j, ∃ hj : j < l.length,
          k = i + j ∧ l[j].1.canPush = true ∧ l[j].1.finished = false := by
  intro l
  induction l with
  | nil => intro i k h; cases h
  | cons x rest ih =>
    intro i k h
    rw [scanOutputs] at h
    by_cases hfin : x.1.finished
    · simp only [hfin, if_true] at h
      obtain ⟨j, hj, hk, hcp, hf⟩ := ih (i + 1) k h
      exact ⟨j + 1, by simpa using Nat.succ_lt_succ hj, by omega, hcp, hf⟩
    · simp only [hfin] at h
      by_cases hcp : x.1.canPush = false
      · simp only [hcp, if_true] at h
        obtain ⟨j, hj, hk, hcp2, hf⟩ := ih (i + 1) k h
        exact ⟨j + 1, by simpa using Nat.succ_lt_succ hj, by omega, hcp2, hf⟩
      · simp only [hcp, if_false] at h
        cases hq : x.2 with
        | nil =>
          rw [hq] at h; simp only at h
          obtain ⟨j, hj, hk, hcp2, hf⟩ := ih (i + 1) k h
          exact ⟨j + 1, by simpa using Nat.succ_lt_succ hj, by omega, hcp2, hf⟩
        | cons b bs =>
          rw [hq] at h; simp only at h
          rcases List.mem_cons.mp h with hk | hk
          · obtain rfl : k = i := by injection hk
            refine ⟨0, by simp, by omega, ?_, ?_⟩
            · simp; exact Bool.of_not_eq_false hcp
            · simp; exact Bool.of_not_eq_true hfin
          · obtain ⟨j, hj, hkk, hcp2, hf⟩ := ih (i + 1) k hk
            exact ⟨j + 1, by simpa using Nat.succ_lt_succ hj, by omega, hcp2, hf⟩

lemma scanOutputs_acts_push :
    ∀ (l : List (OutPort × List DBlock)) (i : Nat),
      ∀ a ∈ (scanOutputs l i).acts, ∃ k, a = PAction.pushOutput k := by
  intro l
  induction l with
  | nil => intro i a ha; cases ha
  | cons x rest ih =>
    intro i a ha
    rw [scanOutputs] at ha
    by_cases hfin : x.1.finished
    · simp only [hfin, if_true] at ha
      exact ih (i + 1) a ha
    · simp only [hfin] at ha
      by_cases hcp : x.1.canPush = false
      · simp only [hcp, if_true] at ha
        exact ih (i + 1) a ha
      · simp only [hcp, if_false] at ha
        cases hq : x.2 with
        | nil => rw [hq] at ha; exact ih (i + 1) a (by simpa using ha)
        | cons b bs =>
          rw [hq] at ha; simp only at ha
          rcases List.mem_cons.mp ha with h | h
          · exact ⟨i, h⟩
          · exact ih (i + 1) a h

/-- **C6.** After initialization, `event` returns `Finished` only when
either every output port is finished, or the input port is finished and
every unfinished output port's pending queue is empty; and whenever it
returns `Finished` the call performs `finish()` on the input port and on
every output port. -/
theorem scatter_event_finished_conditions (st : ScatterSt) (inp : InPort)
    (outs : List OutPort)
    (hInit : st.isInit = true) (hq : st.queues.length = outs.length)
    (hfin : (scatterEvent st inp outs).1 = PEvent.finishedEv) :
    ((∀ o ∈ outs, o.finished = true) ∨
      (inp.finished = true ∧
        ∀ k, ∀ hk : k < outs.length, outs[k].finished = false →
          st.queues.getD k [] = [])) ∧
    PAction.finishInput ∈ (scatterEvent st inp outs).2.2 ∧
    (∀ k, k < outs.length →
      PAction.finishOutput k ∈ (scatterEvent st inp outs).2.2) := by
  have hzl : (outs.zip st.queues).length = outs.length := by
    rw [List.length_zip, hq, Nat.min_self]
  simp only [scatterEvent, hInit] at hfin ⊢
  rw [if_neg (show ¬(true = false) by simp)] at hfin ⊢
  split_ifs at hfin ⊢ with h1 h2 h3 h4
  · -- all output ports finished
    refine ⟨Or.inl ?_, ?_, ?_⟩
    · intro o ho
      obtain ⟨k, hk, rfl⟩ := List.mem_iff_getElem.mp ho
      have hkz : k < (outs.zip st.queues).length := by omega
      have hmem := List.getElem_mem hkz
      have := scanOutputs_allFin (outs.zip st.queues) 0 h1 _ hmem
      rw [List.getElem_zip] at this
      exact this
    · simp [finishActs]
    · intro k hk
      simp only [List.mem_append, finishActs, List.mem_cons, List.mem_map]
      right; right
      exact ⟨k, List.mem_range.mpr hk, rfl⟩
  · -- input finished, all unfinished outputs flushed
    refine ⟨Or.inr ⟨h4, ?_⟩, ?_, ?_⟩
    · intro k hk hkfin
      have hkz : k < (outs.zip st.queues).length := by omega
      have hmem := List.getElem_mem hkz
      have hnc : (scanOutputs (outs.zip st.queues) 0).needCons = false :=
        Bool.not_eq_true _ |>.mp h2
      have := scanOutputs_needCons_false (outs.zip st.queues) 0 hnc _ hmem
      rw [List.getElem_zip] at this
      have hqk : k < st.queues.length := by omega
      rw [List.getD_eq_getElem?_getD, List.getElem?_eq_getElem hqk]
      exact this hkfin
    · simp [finishActs]
    · intro k hk
      simp only [List.mem_append, finishActs, List.mem_cons, List.mem_map]
      right; right
      exact ⟨k, List.mem_range.mpr hk, rfl⟩

/-- Closed witness for `scatter_event_finished_conditions`: one unfinished
output with an empty queue, finished empty input. -/
theorem scatter_event_finished_conditions_witness :
    ((∀ o ∈ [OutPort.mk false true], o.finished = true) ∨
      ((InPort.mk true false []).finished = true ∧
        ∀ k, ∀ hk : k < [OutPort.mk false true].length,
          [OutPort.mk false true][k].finished = false →
          (ScatterSt.mk true [] [[]]).queues.getD k [] = [])) ∧
    PAction.finishInput ∈ (scatterEvent (ScatterSt.mk true [] [[]])
      (InPort.mk true false []) [OutPort.mk false true]).2.2 ∧
    (∀ k, k < [OutPort.mk false true].length →
      PAction.finishOutput k ∈ (scatterEvent (ScatterSt.mk true [] [[]])
        (InPort.mk true false []) [OutPort.mk false true]).2.2) :=
  scatter_event_finished_conditions (ScatterSt.mk true [] [[]])
    (InPort.mk true false []) [OutPort.mk false true]
    rfl rfl (by decide)

/-- **C7.** Port-contract safety of `event`: a push is performed on an
output port only if that port reported `can_push()` and was not finished in
the same call, and the input port is pulled only when it reported
`has_data()`. -/
theorem scatter_event_port_contract (st : ScatterSt) (inp : InPort)
    (outs : List OutPort) :
    (∀ k, PAction.pushOutput k ∈ (scatterEvent st inp outs).2.2 →
      ∃ hk : k < outs.length,
        outs[k].canPush = true ∧ outs[k].finished = false) ∧
    (PAction.pullInput ∈ (scatterEvent st inp outs).2.2 →
      inp.hasData = true) := by
  have hnp : PAction.pullInput ∉ (scanOutputs (outs.zip st.queues) 0).acts := by
    intro hmem
    obtain ⟨k, hk⟩ := scanOutputs_acts_push _ 0 _ hmem
    cases hk
  constructor
  · intro k hpush
    have hscan : PAction.pushOutput k ∈ (scanOutputs (outs.zip st.queues) 0).acts := by
      by_cases hInit : st.isInit = false
      · simp [scatterEvent, hInit] at hpush
      · simp only [scatterEvent, if_neg hInit] at hpush
        split_ifs at hpush with h1 h2 h3 h4
        · rcases List.mem_append.mp hpush with h | h
          · exact h
          · simp [finishActs] at h
        · exact hpush
        · rcases List.mem_append.mp hpush with h | h
          · exact h
          · simp at h
        · rcases List.mem_append.mp hpush with h | h
          · exact h
          · simp [finishActs] at h
        · rcases List.mem_append.mp hpush with h | h
          · exact h
          · simp at h
    obtain ⟨j, hj, hkj, hcp, hf⟩ := scanOutputs_push (outs.zip st.queues) 0 k hscan
    have hjo : j < outs.length := by
      rw [List.length_zip] at hj; omega
    rw [List.getElem_zip] at hcp hf
    have hkj2 : k = j := by omega
    subst hkj2
    exact ⟨hjo, by simpa using hcp, by simpa using hf⟩
  · intro hpull
    by_cases hInit : st.isInit = false
    · simp [scatterEvent, hInit] at hpull
    · simp only [scatterEvent, if_neg hInit] at hpull
      split_ifs at hpull with h1 h2 h3 h4
      · rcases List.mem_append.mp hpull with h | h
        · exact absurd h hnp
        · simp [finishActs] at h
      · exact absurd hpull hnp
      · exact h3
      · rcases List.mem_append.mp hpull with h | h
        · exact absurd h hnp
        · simp [finishActs] at h
      · rcases List.mem_append.mp hpull with h | h
        · exact absurd h hnp
        · simp at h

/-- Closed witness for `scatter_event_port_contract`: one call that pushes
to output 0, and one call that pulls the input. -/
theorem scatter_event_port_contract_witness :
    (∃ hk : 0 < [OutPort.mk false true].length,
      [OutPort.mk false true][0].canPush = true ∧
      [OutPort.mk false true][0].finished = false) ∧
    (InPort.mk false true [[1]]).hasData = true := by
  constructor
  · exact (scatter_event_port_contract
      (ScatterSt.mk true [] [[DBlock.mk [] none]])
      (InPort.mk false false []) [OutPort.mk false true]).1 0 (by decide)
  · exact (scatter_event_port_contract
      (ScatterSt.mk true [] [[]])
      (InPort.mk false true [[1]]) [OutPort.mk false true]).2 (by decide)

/-! ### Hash-join pipeline builder (builder_join.rs)

Each `Barrier::new(n)` allocates a fresh `tokio::sync::Barrier` instance
with `n` participants; instance identity is modelled by threading an
allocation counter, so two calls never return the same instance. -/

structure Barrier where
  id : Nat
  participants : Nat
deriving DecidableEq, Repr

def barrierNew (participants ctr : Nat) : Barrier × Nat :=
  (Barrier.mk ctr participants, ctr + 1)

/-- The two barrier allocations of
`PipelineBuilder::expand_build_side_pipeline`: `barrier` and
`restore_barrier`, both with the build pipeline's `output_len`
participants. -/
def expandBuildSideBarriers (outputLen ctr : Nat) : (Barrier × Barrier) × Nat :=
  let b := barrierNew outputLen ctr
  let rb := barrierNew outputLen b.2
  ((b.1, rb.1), rb.2)

/-- The two barrier allocations of `PipelineBuilder::build_join_probe`:
`barrier` and `restore_barrier`, both with the probe pipeline's
`output_len` participants. -/
def buildJoinProbeBarriers (outputLen ctr : Nat) : (Barrier × Barrier) × Nat :=
  let b := barrierNew outputLen ctr
  let rb := barrierNew outputLen b.2
  ((b.1, rb.1), rb.2)

/-- `PipelineBuilder::build_join`: first the build-side pipeline is
expanded (allocating its two barriers), then the probe side is built
(allocating its own two). -/
def buildJoinBarriers (buildOutputLen probeOutputLen ctr : Nat) :
    ((Barrier × Barrier) × (Barrier × Barrier)) × Nat :=
  let bs := expandBuildSideBarriers buildOutputLen ctr
  let ps := buildJoinProbeBarriers probeOutputLen bs.2
  ((bs.1, ps.1), ps.2)

/-- **C5.** For every hash join assembled by the pipeline builder, the
build-phase barrier and the spill-restore barrier are distinct instances on
each side (indeed all four are pairwise distinct), and on each side both
have participant count equal to that side's pipeline `output_len`. -/
theorem join_barriers_distinct_and_sized (bLen pLen ctr : Nat) :
    (buildJoinBarriers bLen pLen ctr).1.1.1 ≠ (buildJoinBarriers bLen pLen ctr).1.1.2 ∧
    (buildJoinBarriers bLen pLen ctr).1.2.1 ≠ (buildJoinBarriers bLen pLen ctr).1.2.2 ∧
    (buildJoinBarriers bLen pLen ctr).1.1.1 ≠ (buildJoinBarriers bLen pLen ctr).1.2.1 ∧
    (buildJoinBarriers bLen pLen ctr).1.1.1 ≠ (buildJoinBarriers bLen pLen ctr).1.2.2 ∧
    (buildJoinBarriers bLen pLen ctr).1.1.2 ≠ (buildJoinBarriers bLen pLen ctr).1.2.1 ∧
    (buildJoinBarriers bLen pLen ctr).1.1.2 ≠ (buildJoinBarriers bLen pLen ctr).1.2.2 ∧
    (buildJoinBarriers bLen pLen ctr).1.1.1.participants = bLen ∧
    (buildJoinBarriers bLen pLen ctr).1.1.2.participants = bLen ∧
    (buildJoinBarriers bLen pLen ctr).1.2.1.participants = pLen ∧
    (buildJoinBarriers bLen pLen ctr).1.2.2.participants = pLen := by
  refine ⟨?_, ?_, ?_, ?_, ?_, ?_, rfl, rfl, rfl, rfl⟩ <;>
    simp [buildJoinBarriers, expandBuildSideBarriers, buildJoinProbeBarriers,
      barrierNew, Barrier.mk.injEq] <;>
    omega

/-! ### Join spill-state construction (builder_join.rs)

`create_sink_processor` and the probe `add_transform` closure attach a
spill state iff `settings.get_join_spilling_threshold() != 0`. -/

structure BuildSpillState where
  coordinatorWorkers : Nat
deriving DecidableEq, Repr

structure ProbeSpillState : Type where
deriving DecidableEq, Repr

structure TransformHashJoinBuild where
  spillState : Option BuildSpillState
deriving DecidableEq, Repr

structure TransformHashJoinProbe where
  spillState : Option ProbeSpillState
deriving DecidableEq, Repr

/-- `create_sink_processor` in `expand_build_side_pipeline`: the
`BuildSpillState` (with its `BuildSpillCoordinator` sized by `output_len`)
is attached iff `join_spilling_threshold != 0`. -/
def mkTransformHashJoinBuild (joinSpillingThreshold outputLen : Nat) :
    TransformHashJoinBuild :=
  TransformHashJoinBuild.mk
    (if joinSpillingThreshold ≠ 0 then some (BuildSpillState.mk outputLen) else none)

/-- The probe transform closure in `build_join_probe`: the
`ProbeSpillState` is attached iff `join_spilling_threshold != 0`. -/
def mkTransformHashJoinProbe (joinSpillingThreshold : Nat) :
    TransformHashJoinProbe :=
  TransformHashJoinProbe.mk
    (if joinSpillingThreshold ≠ 0 then some ProbeSpillState.mk else none)

/-- **C4, counterexample.** With `join_spilling_threshold = 0` the builder
constructs the build and probe transforms with *no* spill state — the
opposite of the claim that threshold 0 forces spill support. -/
theorem spill_threshold_zero_cex :
    (mkTransformHashJoinBuild 0 4).spillState = none ∧
    (mkTransformHashJoinProbe 0).spillState = none := by
  decide

/-- **C4, amended.** The build-side and probe-side transforms are
constructed with spill support (a `BuildSpillState` / `ProbeSpillState`)
exactly when the `join_spilling_threshold` setting is nonzero; setting it
to 0 disables join spilling. -/
theorem spill_state_iff_threshold_nonzero (t n : Nat) :
    (mkTransformHashJoinBuild t n).spillState.isSome = (t != 0) ∧
    (mkTransformHashJoinProbe t).spillState.isSome = (t != 0) := by
  constructor <;>
    · simp only [mkTransformHashJoinBuild, mkTransformHashJoinProbe]
      split <;> simp_all

/-! ### Merged-range block reader (block_reader.rs)

The storage object is a total byte function `obj : Nat → Nat`; reading the
byte range `[start, stop)` yields the bytes at those offsets.  A raw range
is a pair `(original_index, range)`. -/

structure MRange where
  start : Nat
  stop : Nat
deriving DecidableEq, Repr

/-- `BlockReader::read_range`: the bytes of the object at `[start, stop)`. -/
def readRange (obj : Nat → Nat) (r : MRange) : List Nat :=
  (List.range (r.stop - r.start)).map (fun k => obj (r.start + k))

def covers (m r : MRange) : Bool :=
  decide (m.start ≤ r.start ∧ r.stop ≤ m.stop)

def findCover : List MRange → Nat → MRange → Option (Nat × MRange)
  | [], _, _ => none
  | m :: rest, i, r =>
    if covers m r then some (i, m) else findCover rest (i + 1) r

/-- Modelled from the spec: `RangeMerger::get` (common_base::rangemap, not
in the excerpt) looks a raw range up "from merged ranges", returning the
index and extent of a merged range containing it, or `None` when no merged
range contains it. -/
def rangeMergerGet (merged : List MRange) (r : MRange) : Option (Nat × MRange) :=
  findCover merged 0 r

/-- The per-merged-range read results: `merged_ranges.iter().enumerate()`
spawns `read_range(object, idx, range.start, range.end)` per range, and
`try_join_all` collects `(idx, data)` pairs in order. -/
def mergedResultsAux (obj : Nat → Nat) : List MRange → Nat → List (Nat × List Nat)
  | [], _ => []
  | m :: rest, i => (i, readRange obj m) :: mergedResultsAux obj rest (i + 1)

def mergedResults (obj : Nat → Nat) (merged : List MRange) : List (Nat × List Nat) :=
  mergedResultsAux obj merged 0

/-- The `for (i, data) in &merged_range_data_results { if *i == merged_range_idx ... }`
lookup with early break. -/
def findData (results : List (Nat × List Nat)) (i : Nat) : Option (List Nat) :=
  (results.find? (fun x => x.1 == i)).map (fun x => x.2)

/-- The result-assembly loop of `merge_io_read` over the raw ranges:
look the raw range up among the merged ranges (fatal `Internal` error when
absent), find the covering range's data (fatal `Internal` error when
absent), and slice `data[start..end]` out of it. -/
def mergeLoop (results : List (Nat × List Nat)) (merged : List MRange) :
    List (Nat × MRange) → Except String (List (Nat × List Nat))
  | [] => Except.ok []
  | x :: xs =>
    match rangeMergerGet merged x.2 with
    | none => Except.error "not found raw range from merged ranges"
    | some im =>
      match findData results im.1 with
      | none => Except.error "not found range data"
      | some data =>
        match mergeLoop results merged xs with
        | Except.error msg => Except.error msg
        | Except.ok rest =>
          Except.ok ((x.1, (data.drop (x.2.start - im.2.start)).take
            ((x.2.stop - im.2.start) - (x.2.start - im.2.start))) :: rest)

/-- `BlockReader::merge_io_read`, given the merged ranges produced by the
`RangeMerger` (kept as a parameter: the merging policy itself is outside
the excerpt). -/
def mergeIoRead (obj : Nat → Nat) (merged : List MRange)
    (raw : List (Nat × MRange)) : Except String (List (Nat × List Nat)) :=
  mergeLoop (mergedResults obj merged) merged raw

lemma findCover_some :
    ∀ (l : List MRange) (i : Nat) (r : MRange) (j : Nat) (m : MRange),
      findCover l i r = some (j, m) →
      ∃ t, ∃ ht : t < l.length, j = i + t ∧ l[t] = m ∧ covers m r = true := by
  intro l
  induction l with
  | nil => intro i r j m h; cases h
  | cons a rest ih =>
    intro i r j m h
    rw [findCover] at h
    by_cases hc : covers a r = true
    · rw [if_pos hc] at h
      have h2 := Option.some.inj h
      injection h2 with hj hm
      subst hj; subst hm
      exact ⟨0, by simp, by omega, by simp, hc⟩
    · rw [if_neg hc] at h
      obtain ⟨t, ht, hj, hm, hcov⟩ := ih (i + 1) r j m h
      exact ⟨t + 1, by simpa using Nat.succ_lt_succ ht, by omega,
        by simpa using hm, hcov⟩

lemma findCover_of_exists :
    ∀ (l : List MRange) (i : Nat) (r : MRange),
      (∃ m ∈ l, covers m r = true) →
      ∃ j mr, findCover l i r = some (j, mr) := by
  intro l
  induction l with
  | nil => intro i r h; obtain ⟨m, hm, _⟩ := h; cases hm
  | cons a rest ih =>
    intro i r h
    by_cases hc : covers a r = true
    · exact ⟨i, a, by rw [findCover, if_pos hc]⟩
    · obtain ⟨m, hm, hcov⟩ := h
      rcases List.mem_cons.mp hm with rfl | hm
      · exact absurd hcov hc
      · obtain ⟨j, mr, hj⟩ := ih (i + 1) r ⟨m, hm, hcov⟩
        exact ⟨j, mr, by rw [findCover, if_neg hc]; exact hj⟩

lemma findData_aux (obj : Nat → Nat) :
    ∀ (l : List MRange) (i t : Nat) (ht : t < l.length),
      findData (mergedResultsAux obj l i) (i + t) = some (readRange obj l[t]) := by
  intro l
  induction l with
  | nil => intro i t ht; cases ht
  | cons a rest ih =>
    intro i t ht
    cases t with
    | zero => simp [mergedResultsAux, findData, List.find?]
    | succ t2 =>
      have hne : (i == i + (t2 + 1)) = false := by
        simp only [beq_eq_false_iff_ne]; omega
      have hlen : t2 < rest.length := by simpa using Nat.lt_of_succ_lt_succ ht
      have := ih (i + 1) t2 hlen
      rw [mergedResultsAux, findData, List.find?]
      rw [hne]
      have harith : i + (t2 + 1) = (i + 1) + t2 := by omega
      rw [harith]
      simpa [findData] using this

lemma findData_mergedResults (obj : Nat → Nat) (merged : List MRange)
    (j : Nat) (hj : j < merged.length) :
    findData (mergedResults obj merged) j = some (readRange obj merged[j]) := by
  have := findData_aux obj merged 0 j hj
  simpa [mergedResults] using this

lemma slice_readRange (obj : Nat → Nat) (mr r : MRange)
    (hc : covers mr r = true) :
    ((readRange obj mr).drop (r.start - mr.start)).take
        ((r.stop - mr.start) - (r.start - mr.start)) = readRange obj r := by
  have h1 : mr.start ≤ r.start ∧ r.stop ≤ mr.stop := by
    simpa [covers] using hc
  have hlenmr : (readRange obj mr).length = mr.stop - mr.start := by
    simp [readRange]
  apply List.ext_getElem
  · simp only [List.length_take, List.length_drop, hlenmr, readRange,
      List.length_map, List.length_range]
    omega
  · intro k hk1 hk2
    rw [List.getElem_take, List.getElem_drop]
    have hb : r.start - mr.start + k < (readRange obj mr).length := by
      simp only [List.length_take, List.length_drop, hlenmr] at hk1
      omega
    simp only [readRange, List.getElem_map, List.getElem_range]
    exact congrArg obj (by omega)

/-- **C8.** `merge_io_read` returns a fatal internal error exactly when
some requested raw byte range is not contained in any merged range;
otherwise it succeeds with one result per requested raw range, pairing each
raw range's original index with exactly the bytes of that sub-range sliced
out of its covering merged range. -/
theorem mergeIoRead_correct (obj : Nat → Nat) (merged : List MRange)
    (raw : List (Nat × MRange)) :
    ((∃ x ∈ raw, ∀ m ∈ merged, covers m x.2 = false) →
      ∃ e, mergeIoRead obj merged raw = Except.error e) ∧
    ((∀ x ∈ raw, ∃ m ∈ merged, covers m x.2 = true) →
      mergeIoRead obj merged raw
        = Except.ok (raw.map (fun x => (x.1, readRange obj x.2)))) := by
  unfold mergeIoRead
  induction raw with
  | nil =>
    constructor
    · intro h; obtain ⟨x, hx, _⟩ := h; cases hx
    · intro _; rfl
  | cons x xs ih =>
    constructor
    · intro h
      rw [mergeLoop]
      cases hg : rangeMergerGet merged x.2 with
      | none => exact ⟨_, rfl⟩
      | some im =>
        obtain ⟨j, mr⟩ := im
        obtain ⟨t, ht, hjt, hmt, hcov⟩ := findCover_some merged 0 x.2 j mr hg
        have hjlen : j < merged.length := by omega
        dsimp only
        rw [findData_mergedResults obj merged j hjlen]
        obtain ⟨y, hy, hyall⟩ := h
        rcases List.mem_cons.mp hy with rfl | hy2
        · exact absurd hcov
            (by rw [hyall mr (hmt ▸ List.getElem_mem ht)]; simp)
        · obtain ⟨e, he⟩ := ih.1 ⟨y, hy2, hyall⟩
          rw [he]
          exact ⟨e, rfl⟩
    · intro h
      rw [mergeLoop]
      have hx : ∃ m ∈ merged, covers m x.2 = true :=
        h x (List.mem_cons_self x xs)
      obtain ⟨j, mr, hg⟩ := findCover_of_exists merged 0 x.2 hx
      have hg2 : rangeMergerGet merged x.2 = some (j, mr) := hg
      rw [hg2]
      obtain ⟨t, ht, hjt, hmt, hcov⟩ := findCover_some merged 0 x.2 j mr hg
      have hjlen : j < merged.length := by omega
      dsimp only
      rw [findData_mergedResults obj merged j hjlen]
      rw [ih.2 (fun y hy => h y (List.mem_cons_of_mem x hy))]
      have hjm : merged[j] = mr := by
        have : j = t := by omega
        subst this
        exact hmt
      dsimp only
      rw [List.map_cons, hjm, slice_readRange obj mr x.2 hcov]

/-- Closed witness for `mergeIoRead_correct`: a covered raw range yields
exactly its bytes; an uncovered one yields a fatal error. -/
theorem mergeIoRead_correct_witness :
    mergeIoRead (fun n => n + 100) [MRange.mk 0 4] [(7, MRange.mk 1 3)]
      = Except.ok [(7, [101, 102])] ∧
    (∃ e, mergeIoRead (fun n => n + 100) [MRange.mk 0 4] [(9, MRange.mk 2 6)]
      = Except.error e) := by
  constructor
  · exact ((mergeIoRead_correct (fun n => n + 100) [MRange.mk 0 4]
      [(7, MRange.mk 1 3)]).2 (by decide)).trans (by rfl)
  · exact (mergeIoRead_correct (fun n => n + 100) [MRange.mk 0 4]
      [(9, MRange.mk 2 6)]).1 (by decide)

/-! ### Fixed-width hash-key packing (data_hash_method.rs)

`HashMethodFixedKeys<T>::build_keys` packs the fixed-width group columns
into one native value of `step = size_of::<T::Native>()` bytes per row:
the `while size > 0 { build(size, ..); size /= 2 }` loop writes, for each
size class in halving order, every column of exactly that byte width at
the running offset (`series.fixed_hash(writer, step)` copies the column's
little-endian bytes at stride `step`).  `de_group_columns` re-reads the
packed buffer field by field, advancing the offset by each field's
`numeric_byte_size`, in the *given* field order.

A `FixedCol` is one group column: its fixed byte width and its per-row
values; the byte buffer is modelled per row as a list of byte values. -/

structure FixedCol where
  width : Nat
  vals : List Nat
deriving DecidableEq, Repr

/-- Little-endian fixed-width byte encoding of one value. -/
def leBytes : Nat → Nat → List Nat
  | 0, _ => []
  | w + 1, v => v % 256 :: leBytes w (v / 256)

/-- Little-endian byte decoding (what a fixed-width deserializer reads). -/
def leDecode : List Nat → Nat
  | [] => 0
  | b :: bs => b + 256 * leDecode bs

/-- The size classes visited by `while size > 0 { ..; size /= 2 }`,
starting at `step` (the fuel argument makes the recursion structural; the
loop halves at most `step` times). -/
def halvingSizesAux : Nat → Nat → List Nat
  | 0, _ => []
  | fuel + 1, s => if s = 0 then [] else s :: halvingSizesAux fuel (s / 2)

def halvingSizes (step : Nat) : List Nat := halvingSizesAux step step

/-- The order in which the `build` helper writes the group columns: size
classes in halving order, and within one size class the columns in their
given order; a column is written only when its width matches a visited
size. -/
def buildOrder (cols : List FixedCol) (step : Nat) : List FixedCol :=
  ((halvingSizes step).map (fun s => cols.filter (fun c => c.width == s))).flatten

/-- The bytes the written columns contribute to row `r`, in write order. -/
def encRow (cols : List FixedCol) (r : Nat) : List Nat :=
  (cols.map (fun c => leBytes c.width (c.vals.getD r 0))).flatten

/-- Row `r` of the packed key buffer: the written columns' bytes at their
accumulated offsets, and the remaining bytes of the `step`-byte native
value left at their `T::Native::default()` value 0. -/
def buildKeyRow (cols : List FixedCol) (step r : Nat) : List Nat :=
  encRow (buildOrder cols step) r
    ++ List.replicate (step - ((buildOrder cols step).map (fun c => c.width)).sum) 0

/-- `HashMethodFixedKeys<T>::build_keys` for `step = size_of::<T::Native>`,
one packed key per row. -/
def build_keys (cols : List FixedCol) (rows step : Nat) : List (List Nat) :=
  (List.range rows).map (buildKeyRow cols step)

/-- The field loop of `de_group_columns`: read each field's column at the
running offset (`de_batch(&reader[offsize..], step, rows)`), then advance
the offset by the field's byte size. -/
def deGroupAux (keys : List (List Nat)) : Nat → List Nat → List (List Nat)
  | _, [] => []
  | off, w :: ws =>
    keys.map (fun key => leDecode ((key.drop off).take w))
      :: deGroupAux keys (off + w) ws

/-- `HashMethodFixedKeys<T>::de_group_columns`, with the group fields given
by their byte widths, in the caller's field order. -/
def de_group_columns (keys : List (List Nat)) (widths : List Nat) : List (List Nat) :=
  deGroupAux keys 0 widths

example : build_keys [FixedCol.mk 1 [5], FixedCol.mk 2 [7]] 1 4 = [[7, 0, 5, 0]] := by
  decide

/-- **C9, counterexample.** A 1-byte column followed by a 2-byte column,
total width 3, packed into a 4-byte native key: `build_keys` writes the
2-byte column first (descending size classes), but `de_group_columns`
reads the fields in their given order at sequential offsets, so the round
trip returns `[[7], [1280]]` instead of the original `[[5], [7]]`. -/
theorem fixed_keys_round_trip_cex :
    de_group_columns (build_keys [FixedCol.mk 1 [5], FixedCol.mk 2 [7]] 1 4) [1, 2]
        = [[7], [1280]] ∧
    [[7], [1280]] ≠ [([5] : List Nat), [7]] := by
  decide

lemma length_leBytes : ∀ (w v : Nat), (leBytes w v).length = w := by
  intro w
  induction w with
  | zero => intro v; rfl
  | succ w ih => intro v; simp [leBytes, ih]

lemma leDecode_leBytes_mod : ∀ (w v : Nat), leDecode (leBytes w v) = v % 256 ^ w := by
  intro w
  induction w with
  | zero => intro v; simp [leBytes, leDecode, Nat.mod_one]
  | succ w ih =>
    intro v
    have hp : (256 : Nat) ^ (w + 1) = 256 * 256 ^ w := by ring
    rw [leBytes, leDecode, ih (v / 256), hp, Nat.mod_mul]

lemma leDecode_leBytes (w v : Nat) (h : v < 256 ^ w) : leDecode (leBytes w v) = v := by
  rw [leDecode_leBytes_mod, Nat.mod_eq_of_lt h]

lemma encRow_cons (c : FixedCol) (rest : List FixedCol) (r : Nat) :
    encRow (c :: rest) r = leBytes c.width (c.vals.getD r 0) ++ encRow rest r := by
  simp [encRow]

/-- Reading the packed buffer field by field, at offsets accumulated in
the same order the fields were written, recovers every written column. -/
lemma deGroupAux_encRow :
    ∀ (cols : List FixedCol) (keys : List (List Nat)) (off : Nat),
      (∀ c ∈ cols, c.vals.length = keys.length ∧ ∀ v ∈ c.vals, v < 256 ^ c.width) →
      (∀ r, ∀ hr : r < keys.length, ∃ suffix, keys[r].drop off = encRow cols r ++ suffix) →
      deGroupAux keys off (cols.map (fun c => c.width))
        = cols.map (fun c => c.vals) := by
  intro cols
  induction cols with
  | nil => intro keys off _ _; rfl
  | cons c rest ih =>
    intro keys off hb hk
    rw [List.map_cons, List.map_cons, deGroupAux]
    have hcl : c.vals.length = keys.length := (hb c (List.mem_cons_self c rest)).1
    have hcb : ∀ v ∈ c.vals, v < 256 ^ c.width := (hb c (List.mem_cons_self c rest)).2
    have hhead : keys.map (fun key => leDecode ((key.drop off).take c.width)) = c.vals := by
      apply List.ext_getElem
      · rw [List.length_map, hcl]
      · intro r h1 h2
        rw [List.getElem_map]
        have hr : r < keys.length := by rwa [List.length_map] at h1
        obtain ⟨suffix, hs⟩ := hk r hr
        rw [encRow_cons, List.append_assoc] at hs
        rw [hs]
        have htake : (leBytes c.width (c.vals.getD r 0)
            ++ (encRow rest r ++ suffix)).take c.width
            = leBytes c.width (c.vals.getD r 0) := by
          have := List.take_left (leBytes c.width (c.vals.getD r 0)) (encRow rest r ++ suffix)
          rwa [length_leBytes] at this
        rw [htake]
        have hvr : c.vals.getD r 0 = c.vals[r] := by
          rw [List.getD_eq_getElem?_getD, List.getElem?_eq_getElem h2]
          rfl
        rw [hvr]
        exact leDecode_leBytes _ _ (hcb _ (List.getElem_mem h2))
    have htail : deGroupAux keys (off + c.width) (rest.map (fun c => c.width))
        = rest.map (fun c => c.vals) := by
      apply ih keys (off + c.width)
      · exact fun d hd => hb d (List.mem_cons_of_mem c hd)
      · intro r hr
        obtain ⟨suffix, hs⟩ := hk r hr
        refine ⟨suffix, ?_⟩
        have hdd : keys[r].drop (off + c.width)
            = (keys[r].drop off).drop c.width := by
          rw [List.drop_drop, Nat.add_comm]
        rw [hdd, hs, encRow_cons, List.append_assoc]
        have := List.drop_left (leBytes c.width (c.vals.getD r 0)) (encRow rest r ++ suffix)
        rwa [length_leBytes] at this
    rw [hhead, htail]

/-- **C9, amended.** The round trip `de_group_columns ∘ build_keys`
recovers every group column's values provided the group fields are listed
in the order `build_keys` writes them — grouped by descending halving size
class, i.e. `buildOrder cols step = cols` — with in-range values and one
value per row; for an arbitrary field order (see the counterexample) the
offsets read by `de_group_columns` do not match the written layout. -/
theorem fixed_keys_round_trip_sorted (cols : List FixedCol) (rows step : Nat)
    (hord : buildOrder cols step = cols)
    (hlen : ∀ c ∈ cols, c.vals.length = rows)
    (hbound : ∀ c ∈ cols, ∀ v ∈ c.vals, v < 256 ^ c.width) :
    de_group_columns (build_keys cols rows step) (cols.map (fun c => c.width))
      = cols.map (fun c => c.vals) := by
  have hklen : (build_keys cols rows step).length = rows := by
    simp [build_keys]
  rw [de_group_columns]
  apply deGroupAux_encRow
  · intro c hc
    exact ⟨by rw [hklen]; exact hlen c hc, hbound c hc⟩
  · intro r hr
    refine ⟨List.replicate
      (step - ((buildOrder cols step).map (fun c => c.width)).sum) 0, ?_⟩
    have hget : (build_keys cols rows step)[r] = buildKeyRow cols step r := by
      simp [build_keys]
    rw [hget, List.drop_zero, buildKeyRow, hord]

/-- Closed witness for `fixed_keys_round_trip_sorted`: the same two columns
as the counterexample, but listed in the written (descending-width)
order. -/
theorem fixed_keys_round_trip_sorted_witness :
    de_group_columns (build_keys [FixedCol.mk 2 [7], FixedCol.mk 1 [5]] 1 4)
        ([FixedCol.mk 2 [7], FixedCol.mk 1 [5]].map (fun c => c.width))
      = [FixedCol.mk 2 [7], FixedCol.mk 1 [5]].map (fun c => c.vals) :=
  fixed_keys_round_trip_sorted [FixedCol.mk 2 [7], FixedCol.mk 1 [5]] 1 4
    (by decide) (by decide) (by decide)

end DatabendSpec
